import Mathlib

/-!
Verification of the incremental indexing pipeline of an Obsidian vault
search service (scanner.py, daz-obsidian-mcp.py).

Strings from the Python source are modelled as lists of natural numbers:
document content as its UTF-8 byte sequence, identifiers and hashes as
their character-code sequences.  Python dicts are modelled as
insertion-ordered association lists.  Fallible external calls
(filesystem reads, vector-index mutations, metadata writes) are modelled
by explicit success flags; an exception caught by a handler corresponds
to taking the failing branch.
-/

/-- Constant CHUNK_SIZE from scanner.py. -/
def CHUNK_SIZE : Nat := 1024

/-- Constant OVERLAP_SIZE from scanner.py. -/
def OVERLAP_SIZE : Nat := 256

/-- Constant STEP_SIZE = CHUNK_SIZE - OVERLAP_SIZE from scanner.py. -/
def STEP_SIZE : Nat := CHUNK_SIZE - OVERLAP_SIZE

/-- Continuation byte test for UTF-8 (0x80 to 0xBF). -/
def isCont (b : Nat) : Bool := 128 ≤ b && b ≤ 191

/-- Byte ranges the trailing bytes of a UTF-8 sequence must lie in,
given the leading byte; none when the leading byte can never start a
sequence (continuation bytes, 0xC0/0xC1, bytes above 0xF4). -/
def tailRanges (b : Nat) : Option (List (Nat × Nat)) :=
  if b ≤ 127 then some []
  else if 194 ≤ b && b ≤ 223 then some [(128, 191)]
  else if b == 224 then some [(160, 191), (128, 191)]
  else if 225 ≤ b && b ≤ 236 then some [(128, 191), (128, 191)]
  else if b == 237 then some [(128, 159), (128, 191)]
  else if 238 ≤ b && b ≤ 239 then some [(128, 191), (128, 191)]
  else if b == 240 then some [(144, 191), (128, 191), (128, 191)]
  else if 241 ≤ b && b ≤ 243 then some [(128, 191), (128, 191), (128, 191)]
  else if b == 244 then some [(128, 143), (128, 191), (128, 191)]
  else none

/-- Check that the next bytes fall in the given ranges and return the
remaining bytes, or none on a mismatch or premature end of input. -/
def checkTail : List (Nat × Nat) → List Nat → Option (List Nat)
  | [], rest => some rest
  | _ :: _, [] => none
  | r :: rs, b :: bs => if r.1 ≤ b && b ≤ r.2 then checkTail rs bs else none

/-- Validity of a byte sequence as UTF-8, as checked by CPython's
bytes.decode with the strict handler: rejects truncated sequences,
overlong forms, surrogates and code points above U+10FFFF.  Fuel makes
the recursion structural; every step consumes at least one byte, so
fuel equal to the length of the input always suffices. -/
def utf8ValidF : Nat → List Nat → Bool
  | _, [] => true
  | 0, _ :: _ => false
  | fuel+1, b :: rest =>
    match tailRanges b with
    | none => false
    | some rs =>
      match checkTail rs rest with
      | none => false
      | some rest2 => utf8ValidF fuel rest2

/-- Validity of a byte sequence as UTF-8 (CPython bytes.decode). -/
def utf8Valid (l : List Nat) : Bool := utf8ValidF l.length l

/-- The inner while-loop of chunk_content (scanner.py lines 111-117):
starting from candidate slice length j, trim trailing bytes until the
byte slice decodes cleanly; returns the first (largest) length in
j, j-1, ..., 1 whose prefix is valid UTF-8, or none when even length 1
fails, i.e. when end_pos has shrunk back to pos. -/
def shrinkLen (bs : List Nat) : Nat → Option Nat
  | 0 => none
  | j+1 => if utf8Valid (bs.take (j+1)) then some (j+1) else shrinkLen bs (j)

/-- The outer while-loop of chunk_content (scanner.py lines 104-122),
with explicit fuel (the loop advances pos by STEP_SIZE each iteration,
so content.length + 1 units of fuel always suffice).  Each iteration
takes the byte window of at most CHUNK_SIZE bytes starting at pos,
trims it to a valid UTF-8 boundary, emits it when nonempty, and steps
pos forward by STEP_SIZE. -/
def chunkLoopF (content : List Nat) : Nat → Nat → List (List Nat × Nat × Nat)
  | 0, _ => []
  | fuel+1, pos =>
    if pos < content.length then
      let slice := (content.drop pos).take CHUNK_SIZE
      match shrinkLen slice slice.length with
      | some j => (slice.take j, pos, pos + j) :: chunkLoopF content fuel (pos + STEP_SIZE)
      | none => chunkLoopF content fuel (pos + STEP_SIZE)
    else []

/-- chunk_content (scanner.py lines 90-124): the title chunk (title, 0, 0)
followed by the overlapping content windows.  Texts are the byte slices
(the UTF-8 encodings of the decoded chunk strings). -/
def chunk_content (title content : List Nat) : List (List Nat × Nat × Nat) :=
  (title, 0, 0) :: chunkLoopF content (content.length + 1) 0

/-- Content windows of chunk_content: everything after the title chunk. -/
def contentWindows (title content : List Nat) : List (List Nat × Nat × Nat) :=
  (chunk_content title content).tail

/-- Overlap-equality relation between consecutive windows: the earlier
window's end exceeds the later window's start by exactly OVERLAP_SIZE. -/
def overlapEq (a b : List Nat × Nat × Nat) : Prop := a.2.2 - b.2.1 = OVERLAP_SIZE

instance : DecidableRel overlapEq := fun a b => inferInstanceAs (Decidable (a.2.2 - b.2.1 = OVERLAP_SIZE))

lemma shrinkLen_bounds (bs : List Nat) : ∀ k j, shrinkLen bs k = some j → 1 ≤ j ∧ j ≤ k := by
  intro k
  induction k with
  | zero => intro j h; simp [shrinkLen] at h
  | succ n ih =>
    intro j h
    unfold shrinkLen at h
    split at h
    · cases h; omega
    · have := ih j h; omega

lemma shrinkLen_full (bs : List Nat) (h : utf8Valid bs = true) (hne : bs ≠ []) :
    shrinkLen bs bs.length = some bs.length := by
  obtain ⟨n, hn⟩ : ∃ n, bs.length = n + 1 := by
    cases bs with
    | nil => exact absurd rfl hne
    | cons a t => exact ⟨t.length, rfl⟩
  rw [hn]
  unfold shrinkLen
  rw [← hn, List.take_length, h]
  simp

lemma utf8ValidF_of_ascii :
    ∀ fuel l, (∀ b ∈ l, b < 128) → l.length ≤ fuel → utf8ValidF fuel l = true := by
  intro fuel
  induction fuel with
  | zero =>
    intro l h hl
    cases l with
    | nil => rfl
    | cons b t => simp at hl
  | succ n ih =>
    intro l h hl
    cases l with
    | nil => rfl
    | cons b t =>
      have hb : b ≤ 127 := by
        have := h b (by simp)
        omega
      have hr : tailRanges b = some [] := by
        unfold tailRanges
        rw [if_pos hb]
      rw [utf8ValidF, hr]
      show utf8ValidF n t = true
      refine ih t (fun x hx => h x (by simp [hx])) ?_
      simp at hl
      omega

lemma utf8Valid_of_ascii (l : List Nat) (h : ∀ b ∈ l, b < 128) : utf8Valid l = true :=
  utf8ValidF_of_ascii l.length l h (le_refl _)

lemma chunkLoopF_mem_bounds (content : List Nat) :
    ∀ fuel pos c, c ∈ chunkLoopF content fuel pos →
      pos ≤ c.2.1 ∧ c.2.1 < content.length ∧ c.2.1 < c.2.2 ∧
      c.2.2 - c.2.1 ≤ CHUNK_SIZE ∧ c.2.2 ≤ content.length ∧
      c.1.length = c.2.2 - c.2.1 := by
  intro fuel
  induction fuel with
  | zero => intro pos c hc; simp [chunkLoopF] at hc
  | succ n ih =>
    intro pos c hc
    simp only [chunkLoopF] at hc
    split at hc
    case isTrue hp =>
      split at hc
      case h_1 j hj =>
        have hjb := shrinkLen_bounds _ _ _ hj
        have hsl : ((content.drop pos).take CHUNK_SIZE).length = min CHUNK_SIZE (content.length - pos) := by
          simp [List.length_take, List.length_drop]
        rw [hsl] at hjb
        rcases List.mem_cons.mp hc with hhd | htl
        · subst hhd
          show pos ≤ pos ∧ pos < content.length ∧ pos < pos + j ∧
            (pos + j) - pos ≤ CHUNK_SIZE ∧ pos + j ≤ content.length ∧
            (((content.drop pos).take CHUNK_SIZE).take j).length = (pos + j) - pos
          have hlen : (((content.drop pos).take CHUNK_SIZE).take j).length = j := by
            rw [List.length_take, hsl]
            omega
          refine ⟨le_refl _, hp, by omega, by omega, by omega, by rw [hlen]; omega⟩
        · have := ih (pos + STEP_SIZE) c htl
          have hstep : 0 < STEP_SIZE := by simp [STEP_SIZE, CHUNK_SIZE, OVERLAP_SIZE]
          exact ⟨by omega, this.2.1, this.2.2.1, this.2.2.2.1, this.2.2.2.2.1, this.2.2.2.2.2⟩
      case h_2 =>
        have := ih (pos + STEP_SIZE) c hc
        have hstep : 0 < STEP_SIZE := by simp [STEP_SIZE, CHUNK_SIZE, OVERLAP_SIZE]
        exact ⟨by omega, this.2.1, this.2.2.1, this.2.2.2.1, this.2.2.2.2.1, this.2.2.2.2.2⟩
    case isFalse => simp at hc

lemma chunkLoopF_pairwise (content : List Nat) :
    ∀ fuel pos, (chunkLoopF content fuel pos).Pairwise (fun a b => a.2.1 < b.2.1) := by
  intro fuel
  induction fuel with
  | zero => intro pos; simp [chunkLoopF]
  | succ n ih =>
    intro pos
    simp only [chunkLoopF]
    split
    case isTrue hp =>
      split
      case h_1 j hj =>
        refine List.pairwise_cons.mpr ⟨?_, ih (pos + STEP_SIZE)⟩
        intro c hc
        have := chunkLoopF_mem_bounds content n (pos + STEP_SIZE) c hc
        have hstep : 0 < STEP_SIZE := by simp [STEP_SIZE, CHUNK_SIZE, OVERLAP_SIZE]
        simp only
        omega
      case h_2 => exact ih (pos + STEP_SIZE)
    case isFalse => simp

lemma chunkLoopF_chain_overlap_le (content : List Nat) :
    ∀ fuel pos, (chunkLoopF content fuel pos).Chain' (fun a b => a.2.2 ≤ b.2.1 + OVERLAP_SIZE) := by
  intro fuel
  induction fuel with
  | zero => intro pos; simp [chunkLoopF]
  | succ n ih =>
    intro pos
    simp only [chunkLoopF]
    split
    case isTrue hp =>
      split
      case h_1 j hj =>
        refine List.chain'_cons'.mpr ⟨?_, ih (pos + STEP_SIZE)⟩
        intro b hb
        have hbmem : b ∈ chunkLoopF content n (pos + STEP_SIZE) := List.mem_of_mem_head? hb
        have hbb := chunkLoopF_mem_bounds content n (pos + STEP_SIZE) b hbmem
        have hjb := shrinkLen_bounds _ _ _ hj
        have hsl : ((content.drop pos).take CHUNK_SIZE).length = min CHUNK_SIZE (content.length - pos) := by
          simp [List.length_take, List.length_drop]
        rw [hsl] at hjb
        simp only [STEP_SIZE, CHUNK_SIZE, OVERLAP_SIZE] at *
        omega
      case h_2 => exact ih (pos + STEP_SIZE)
    case isFalse => simp

lemma drop_take_ascii (content : List Nat) (hA : ∀ b ∈ content, b < 128) (pos n : Nat) :
    utf8Valid ((content.drop pos).take n) = true := by
  apply utf8Valid_of_ascii
  intro b hb
  exact hA b (List.mem_of_mem_drop (List.mem_of_mem_take hb))

lemma chunkLoopF_ascii_cons (content : List Nat) (hA : ∀ b ∈ content, b < 128)
    (fuel pos : Nat) (hp : pos < content.length) :
    chunkLoopF content (fuel+1) pos =
      ((content.drop pos).take CHUNK_SIZE, pos, pos + min CHUNK_SIZE (content.length - pos)) ::
        chunkLoopF content fuel (pos + STEP_SIZE) := by
  have hval := drop_take_ascii content hA pos CHUNK_SIZE
  have hlen : ((content.drop pos).take CHUNK_SIZE).length = min CHUNK_SIZE (content.length - pos) := by
    simp [List.length_take, List.length_drop]
  have hne : (content.drop pos).take CHUNK_SIZE ≠ [] := by
    intro heq
    rw [heq] at hlen
    simp only [List.length_nil] at hlen
    simp only [CHUNK_SIZE] at hlen
    omega
  simp only [chunkLoopF]
  rw [if_pos hp, shrinkLen_full _ hval hne]
  show (((content.drop pos).take CHUNK_SIZE).take ((content.drop pos).take CHUNK_SIZE).length,
      pos, pos + ((content.drop pos).take CHUNK_SIZE).length) ::
      chunkLoopF content fuel (pos + STEP_SIZE) = _
  rw [List.take_length, hlen]

lemma chunkLoopF_ascii_dropLast_chain (content : List Nat) (hA : ∀ b ∈ content, b < 128) :
    ∀ fuel pos, ((chunkLoopF content fuel pos).dropLast).Chain' overlapEq := by
  intro fuel
  induction fuel with
  | zero => intro pos; simp [chunkLoopF]
  | succ n ih =>
    intro pos
    by_cases hp : pos < content.length
    · rw [chunkLoopF_ascii_cons content hA n pos hp]
      cases hrest : chunkLoopF content n (pos + STEP_SIZE) with
      | nil => simp [List.dropLast]
      | cons w2 rest2 =>
        show List.Chain' overlapEq
          (((content.drop pos).take CHUNK_SIZE, pos, pos + min CHUNK_SIZE (content.length - pos)) ::
            (w2 :: rest2).dropLast)
        have hchain2 : ((w2 :: rest2).dropLast).Chain' overlapEq := by
          rw [← hrest]
          exact ih (pos + STEP_SIZE)
        refine List.chain'_cons'.mpr ⟨?_, hchain2⟩
        intro b hb
        cases rest2 with
        | nil => simp at hb
        | cons w3 rest3 =>
          have hb2 : b = w2 := by
            simp [List.dropLast] at hb
            exact hb.symm
          subst hb2
          rcases n with _ | m
          · simp [chunkLoopF] at hrest
          · by_cases hp2 : pos + STEP_SIZE < content.length
            · rw [chunkLoopF_ascii_cons content hA m (pos + STEP_SIZE) hp2] at hrest
              obtain ⟨hw2, hrest2⟩ := List.cons.inj hrest
              have hw3 : w3 ∈ chunkLoopF content m (pos + STEP_SIZE + STEP_SIZE) := by
                rw [hrest2]
                simp
              have hb3 := chunkLoopF_mem_bounds content m (pos + STEP_SIZE + STEP_SIZE) w3 hw3
              have hw2c : b.2.1 = pos + STEP_SIZE := by
                rw [← hw2]
              show (pos + min CHUNK_SIZE (content.length - pos)) - b.2.1 = OVERLAP_SIZE
              rw [hw2c]
              simp only [STEP_SIZE, CHUNK_SIZE, OVERLAP_SIZE] at *
              omega
            · rw [chunkLoopF, if_neg hp2] at hrest
              simp at hrest
    · rw [chunkLoopF, if_neg hp]
      simp

lemma chunkLoopF_small (content : List Nat) (hv : utf8Valid content = true)
    (h0 : 0 < content.length) (hle : content.length ≤ STEP_SIZE) :
    ∀ fuel, content.length < fuel → chunkLoopF content fuel 0 = [(content, 0, content.length)] := by
  intro fuel hf
  rcases fuel with _ | n
  · omega
  rcases n with _ | k
  · omega
  have hne : content ≠ [] := List.ne_nil_of_length_pos h0
  have hCS : content.length ≤ CHUNK_SIZE := by
    simp only [STEP_SIZE, CHUNK_SIZE, OVERLAP_SIZE] at hle ⊢
    omega
  have hslice : (content.drop 0).take CHUNK_SIZE = content := by
    rw [List.drop_zero]
    exact List.take_of_length_le hCS
  simp only [chunkLoopF]
  rw [if_pos h0, hslice, shrinkLen_full content hv hne]
  have hstop : ¬ (0 + STEP_SIZE < content.length) := by omega
  show (content.take content.length, 0, 0 + content.length) ::
      (if 0 + STEP_SIZE < content.length then _ else []) = [(content, 0, content.length)]
  rw [if_neg hstop, List.take_length]
  simp

/-- C4 (amended): for valid UTF-8 content of nonzero byte length at most
STEP_SIZE (768), chunk_content returns exactly the title chunk followed
by one window covering the whole content.  (For lengths in 769..1024 the
loop emits a third, overlapping tail window; see the counterexample.) -/
theorem chunk_content_small (title content : List Nat) (hv : utf8Valid content = true)
    (h0 : 0 < content.length) (hle : content.length ≤ STEP_SIZE) :
    chunk_content title content = [(title, 0, 0), (content, 0, content.length)] := by
  unfold chunk_content
  rw [chunkLoopF_small content hv h0 hle (content.length + 1) (by omega)]

/-- Witness for chunk_content_small at a concrete two-byte content. -/
theorem chunk_content_small_witness :
    chunk_content [116] [104, 105] = [([116], 0, 0), ([104, 105], 0, 2)] :=
  chunk_content_small [116] [104, 105] (by decide) (by decide) (by decide)

set_option maxRecDepth 100000 in
/-- C4 counterexample: content of 1000 ASCII bytes has byte length at
most CHUNK_SIZE (1024) yet chunk_content returns 3 elements, not 2 —
the step size is 768, so a second overlapping window (768, 1000) is
emitted. -/
theorem chunk_content_three_chunks :
    0 < (List.replicate 1000 97).length ∧
    (List.replicate 1000 97).length ≤ CHUNK_SIZE ∧
    (chunk_content [116] (List.replicate 1000 97)).length ≠ 2 := by
  decide

/-- C5 (amended): the non-title windows of chunk_content are strictly
increasing in start offset, each window has byte length at most
CHUNK_SIZE, and every pair of consecutive windows overlaps by at most
OVERLAP_SIZE; when every content byte is ASCII (so no window is trimmed
at a UTF-8 boundary) every pair of consecutive windows except the pair
ending at the final window overlaps by exactly OVERLAP_SIZE.  With
multi-byte characters a trimmed window may overlap the next one by less
than OVERLAP_SIZE even away from the final window; see the
counterexample. -/
theorem contentWindows_spans (title content : List Nat) :
    (contentWindows title content).Pairwise (fun a b => a.2.1 < b.2.1) ∧
    (∀ c ∈ contentWindows title content,
      c.1.length = c.2.2 - c.2.1 ∧ c.2.2 - c.2.1 ≤ CHUNK_SIZE) ∧
    (contentWindows title content).Chain' (fun a b => a.2.2 ≤ b.2.1 + OVERLAP_SIZE) ∧
    ((∀ b ∈ content, b < 128) →
      ((contentWindows title content).dropLast).Chain' overlapEq) := by
  have hw : contentWindows title content = chunkLoopF content (content.length + 1) 0 := rfl
  rw [hw]
  refine ⟨chunkLoopF_pairwise content _ 0, ?_, chunkLoopF_chain_overlap_le content _ 0, ?_⟩
  · intro c hc
    have := chunkLoopF_mem_bounds content (content.length + 1) 0 c hc
    exact ⟨this.2.2.2.2.2, this.2.2.2.1⟩
  · intro hA
    exact chunkLoopF_ascii_dropLast_chain content hA _ 0

/-- Witness for contentWindows_spans, discharging the ASCII hypothesis
at the concrete content [97, 98, 99]. -/
theorem contentWindows_spans_witness :
    ((contentWindows [116] [97, 98, 99]).dropLast).Chain' overlapEq :=
  (And.right (And.right (And.right (contentWindows_spans [116] [97, 98, 99])))) (by decide)

/-- Content of the C5 counterexample: 1023 ASCII bytes, a two-byte
character (0xC3 0xA9), then 513 more ASCII bytes (1538 bytes in all,
enough for three windows). -/
def trimContent : List Nat := List.replicate 1023 97 ++ [195, 169] ++ List.replicate 513 97

/-- Boolean checker for the consecutive-overlap-equality chain, used to
let the kernel evaluate concrete instances. -/
def chainOverlapEqB : List (List Nat × Nat × Nat) → Bool
  | [] => true
  | [_] => true
  | a :: b :: rest => (decide (a.2.2 - b.2.1 = OVERLAP_SIZE)) && chainOverlapEqB (b :: rest)

lemma chainOverlapEqB_iff : ∀ l, chainOverlapEqB l = true ↔ l.Chain' overlapEq := by
  intro l
  match l with
  | [] => simp [chainOverlapEqB]
  | [a] => simp [chainOverlapEqB]
  | a :: b :: rest =>
    rw [chainOverlapEqB, List.chain'_cons, Bool.and_eq_true, decide_eq_true_iff]
    exact and_congr Iff.rfl (chainOverlapEqB_iff (b :: rest))

set_option maxRecDepth 100000 in
/-- C5 counterexample: on trimContent the windows are (0,1023),
(768,1538), (1536,1538) — the first window is trimmed at the UTF-8
boundary, so the pair ((0,1023),(768,1538)), which does not end at the
final window, overlaps by 255 rather than OVERLAP_SIZE = 256. -/
theorem contentWindows_overlap_violation :
    ¬ ((contentWindows [116] trimContent).dropLast).Chain' overlapEq := by
  have h : chainOverlapEqB ((contentWindows [116] trimContent).dropLast) = false := by decide
  intro hc
  rw [← chainOverlapEqB_iff] at hc
  rw [h] at hc
  exact Bool.false_ne_true hc

/-- Decimal digits of a natural number, most significant first, as
produced by Python str formatting of an int.  Fuel keeps the recursion
structural; fuel equal to the number itself always suffices since the
argument shrinks by a factor of ten each step. -/
def natToDigitsF : Nat → Nat → List Nat
  | 0, n => [n % 10]
  | fuel+1, n => if n < 10 then [n] else natToDigitsF fuel (n / 10) ++ [n % 10]

/-- Decimal digits of a natural number, most significant first. -/
def natToDigits (n : Nat) : List Nat := natToDigitsF n n

/-- Value of a digit sequence read back as a decimal number. -/
def digitsVal (ds : List Nat) : Nat := ds.foldl (fun a d => a * 10 + d) 0

lemma digitsVal_append (ds : List Nat) (d : Nat) :
    digitsVal (ds ++ [d]) = digitsVal ds * 10 + d := by
  unfold digitsVal
  rw [List.foldl_append]
  rfl

lemma digitsVal_natToDigitsF : ∀ fuel n, n ≤ fuel → digitsVal (natToDigitsF fuel n) = n := by
  intro fuel
  induction fuel with
  | zero =>
    intro n hn
    have h0 : n = 0 := by omega
    subst h0
    rfl
  | succ k ih =>
    intro n hn
    rw [natToDigitsF]
    split
    · unfold digitsVal
      simp
    · rename_i hge
      rw [digitsVal_append, ih (n / 10) (by omega)]
      omega

lemma natToDigits_val (n : Nat) : digitsVal (natToDigits n) = n :=
  digitsVal_natToDigitsF n n (le_refl _)

lemma natToDigits_inj (m n : Nat) (h : natToDigits m = natToDigits n) : m = n := by
  have hm := natToDigits_val m
  have hn := natToDigits_val n
  rw [h] at hm
  omega

lemma natToDigitsF_lt_ten : ∀ fuel n d, d ∈ natToDigitsF fuel n → d < 10 := by
  intro fuel
  induction fuel with
  | zero =>
    intro n d hd
    simp [natToDigitsF] at hd
    omega
  | succ k ih =>
    intro n d hd
    rw [natToDigitsF] at hd
    split at hd
    · simp at hd
      omega
    · rw [List.mem_append] at hd
      rcases hd with hd | hd
      · exact ih (n / 10) d hd
      · simp at hd
        omega

/-- Chunk id as built in index_file (scanner.py line 211): the document
id, an underscore (code 95), then the decimal digits of the chunk index
(codes 48..57). -/
def chunkId (doc : List Nat) (i : Nat) : List Nat :=
  doc ++ 95 :: (natToDigits i).map (fun d => 48 + d)

lemma digitChars_no_sep (i : Nat) : 95 ∉ (natToDigits i).map (fun d => 48 + d) := by
  intro hmem
  rw [List.mem_map] at hmem
  obtain ⟨d, hd, hval⟩ := hmem
  have := natToDigitsF_lt_ten i i d hd
  omega

lemma append_sep_inj : ∀ (a : List Nat) (b u v : List Nat), 95 ∉ u → 95 ∉ v →
    a ++ 95 :: u = b ++ 95 :: v → a = b ∧ u = v := by
  intro a
  induction a with
  | nil =>
    intro b u v hu hv h
    cases b with
    | nil => simpa using h
    | cons c bt =>
      simp only [List.nil_append, List.cons_append, List.cons.injEq] at h
      exfalso
      apply hu
      rw [h.2]
      simp
  | cons c at2 ih =>
    intro b u v hu hv h
    cases b with
    | nil =>
      simp only [List.nil_append, List.cons_append, List.cons.injEq] at h
      exfalso
      apply hv
      rw [← h.2]
      simp
    | cons c2 bt =>
      simp only [List.cons_append, List.cons.injEq] at h
      obtain ⟨h1, h2⟩ := ih bt u v hu hv h.2
      exact ⟨by rw [h.1, h1], h2⟩

/-- C10: chunk id construction is injective across documents: two ids
f-string document_id underscore index agree only when both the document
ids and the indices agree, because the decimal digits after the final
underscore never contain an underscore. -/
theorem chunkId_inj (d1 : List Nat) (i1 : Nat) (d2 : List Nat) (i2 : Nat)
    (h : chunkId d1 i1 = chunkId d2 i2) : d1 = d2 ∧ i1 = i2 := by
  unfold chunkId at h
  obtain ⟨hd, hdig⟩ :=
    append_sep_inj d1 d2 _ _ (digitChars_no_sep i1) (digitChars_no_sep i2) h
  refine ⟨hd, ?_⟩
  have hinj : Function.Injective (fun d : Nat => 48 + d) := fun x y hxy => by
    simp at hxy
    exact hxy
  have hmap := List.map_injective_iff.mpr hinj hdig
  exact natToDigits_inj i1 i2 hmap

/-- Witness for chunkId_inj at document id [97] and index 12. -/
theorem chunkId_inj_witness : ([97] : List Nat) = [97] ∧ (12 : Nat) = 12 :=
  chunkId_inj [97] 12 [97] 12 rfl

/-- Metadata stored with each chunk (scanner.py lines 214-222). -/
structure ChunkMeta where
  file_path : List Nat
  title : List Nat
  chunk_index : Nat
  start_pos : Nat
  end_pos : Nat
  is_title_chunk : Bool
  full_path : List Nat
deriving DecidableEq

/-- One record of the note_chunks collection: id, document text,
metadata. -/
structure ChunkRecord where
  id : List Nat
  document : List Nat
  meta : ChunkMeta
deriving DecidableEq

/-- Mutations issued to the Vector Index. -/
inductive VOp where
  | deleteBatch (ids : List (List Nat))
  | addBatch (ids : List (List Nat))
deriving DecidableEq

/-- State of the indexer: the note_chunks collection, the in-memory
file_hashes dict, and the persisted metadata file contents. -/
structure SyncState where
  collection : List ChunkRecord
  file_hashes : List (List Nat × List Nat)
  persisted : List (List Nat × List Nat)
deriving DecidableEq

/-- Success flags for the fallible external steps of index_file:
reading and hashing the file, the get/delete inside remove_file_chunks,
collection.add, and the metadata file write. -/
structure Flags where
  readOk : Bool
  deleteOk : Bool
  addOk : Bool
  saveOk : Bool

/-- All external steps succeed. -/
def allOk : Flags := ⟨true, true, true, true⟩

/-- Lookup in a Python dict modelled as an insertion-ordered
association list. -/
def lookupA {α : Type} : List (List Nat × α) → List Nat → Option α
  | [], _ => none
  | (k, v) :: rest, key => if k = key then some v else lookupA rest key

/-- Dict assignment: replace the value in place when the key is present
(a Python dict keeps the original insertion position), append
otherwise. -/
def setKeyA {α : Type} : List (List Nat × α) → List Nat → α → List (List Nat × α)
  | [], key, v => [(key, v)]
  | (k, w) :: rest, key, v =>
    if k = key then (k, v) :: rest else (k, w) :: setKeyA rest key v

/-- Records of one document in the collection: the result of the
collection.get query with a where filter on file_path. -/
def docRecords (col : List ChunkRecord) (filepath : List Nat) : List ChunkRecord :=
  col.filter (fun r => decide (r.meta.file_path = filepath))

/-- remove_file_chunks (scanner.py lines 165-177): query the collection
for all chunks with the given file_path and delete the returned ids in
one batch; nothing is deleted when the query returns no ids.  Any
exception is caught, logged and swallowed inside this function (ok =
false models the get or delete raising), so the caller never observes a
failure. -/
def remove_file_chunks (ok : Bool) (col : List ChunkRecord) (filepath : List Nat) :
    List ChunkRecord × List VOp :=
  if ok then
    let ids := (docRecords col filepath).map (fun r => r.id)
    if ids = [] then (col, [])
    else (col.filter (fun r => !decide (r.id ∈ ids)), [VOp.deleteBatch ids])
  else (col, [])

/-- Chunk records built in index_file (scanner.py lines 206-222) from
the chunks of a document: ids are the document id plus the running
index, metadata captures path, title, index, span, title-chunk flag and
absolute path. -/
def buildRecords (relative_path title full_path : List Nat)
    (chunks : List (List Nat × Nat × Nat)) : List ChunkRecord :=
  chunks.enum.map (fun p =>
    { id := chunkId relative_path p.1
      document := p.2.1
      meta := { file_path := relative_path, title := title, chunk_index := p.1,
                start_pos := p.2.2.1, end_pos := p.2.2.2,
                is_title_chunk := decide (p.1 = 0), full_path := full_path } })

/-- collection.add modelled with the upsert semantics of the Vector
Index interface: a record whose id is inserted again is replaced, fresh
ids are appended. -/
def addRecords (col : List ChunkRecord) (recs : List ChunkRecord) : List ChunkRecord :=
  col.filter (fun r => !decide (r.id ∈ recs.map (fun s => s.id))) ++ recs

/-- Byte codes of the ".md" suffix. -/
def mdSuffix : List Nat := [46, 109, 100]

/-- Byte codes of the ".markdown" suffix. -/
def markdownSuffix : List Nat := [46, 109, 97, 114, 107, 100, 111, 119, 110]

/-- index_file (scanner.py lines 179-238).  Non-markdown suffixes
return immediately.  A failed read (read_text, calculate_file_hash or
relative_to raising) is caught by the outer handler before any
mutation.  When the stored fingerprint equals the current hash the call
is a no-op.  Otherwise old chunks are removed when a fingerprint
exists (remove_file_chunks swallows its own failures), the new chunk
records are added in one batch (a failure there is caught after the
delete already happened), and on success the in-memory hash is updated
and then save_metadata persists it (a failed write leaves the persisted
file unchanged but the in-memory dict already updated).  Returns the
new state and the batched Vector Index mutations performed. -/
def index_file (fl : Flags) (s : SyncState)
    (suffix relative_path title full_path content currentHash : List Nat) :
    SyncState × List VOp :=
  if ¬ (suffix = mdSuffix ∨ suffix = markdownSuffix) then (s, [])
  else if ¬ fl.readOk then (s, [])
  else if lookupA s.file_hashes relative_path = some currentHash then (s, [])
  else
    let rm :=
      if (lookupA s.file_hashes relative_path).isSome then
        remove_file_chunks fl.deleteOk s.collection relative_path
      else (s.collection, [])
    let recs := buildRecords relative_path title full_path (chunk_content title content)
    if ¬ fl.addOk then ({ s with collection := rm.1 }, rm.2)
    else
      let col2 := addRecords rm.1 recs
      let ops := rm.2 ++ [VOp.addBatch (recs.map (fun r => r.id))]
      let fh := setKeyA s.file_hashes relative_path currentHash
      if ¬ fl.saveOk then ({ collection := col2, file_hashes := fh, persisted := s.persisted }, ops)
      else ({ collection := col2, file_hashes := fh, persisted := fh }, ops)

/-- Observable contents of the metadata file during save_metadata
(scanner.py lines 160-163): some m when the file parses as the mapping
m, none when it does not (the empty truncated file).  Opening with mode
w truncates the file immediately; json.dump then writes the new
serialization, so a crash between the two exposes the empty file. -/
def save_metadata_states (old new : List (List Nat × List Nat)) :
    List (Option (List (List Nat × List Nat))) :=
  [some old, none, some new]

/-- Crash safety of a persist operation: every observable intermediate
file state parses as the old mapping or as the new mapping. -/
def crashSafe (old new : List (List Nat × List Nat)) : Prop :=
  ∀ st ∈ save_metadata_states old new, st = some old ∨ st = some new

lemma lookupA_setKeyA_self {α : Type} (m : List (List Nat × α)) (k : List Nat) (v : α) :
    lookupA (setKeyA m k v) k = some v := by
  induction m with
  | nil => simp [setKeyA, lookupA]
  | cons p rest ih =>
    obtain ⟨k2, w⟩ := p
    unfold setKeyA
    split
    · rename_i heq
      unfold lookupA
      rw [if_pos heq]
    · rename_i hne
      unfold lookupA
      rw [if_neg hne]
      exact ih

/-- C2 helper: when the stored fingerprint equals the current hash,
index_file returns without any Vector Index mutation and with the state
unchanged, whatever the success flags (scanner.py lines 194-196; a
failed read also aborts before any mutation). -/
lemma index_file_noop (fl : Flags) (s : SyncState)
    (suffix relative_path title full_path content currentHash : List Nat)
    (h : lookupA s.file_hashes relative_path = some currentHash) :
    index_file fl s suffix relative_path title full_path content currentHash = (s, []) := by
  unfold index_file
  by_cases h1 : ¬ (suffix = mdSuffix ∨ suffix = markdownSuffix)
  · rw [if_pos h1]
  · rw [if_neg h1]
    by_cases h2 : ¬ (fl.readOk = true)
    · rw [if_pos h2]
    · rw [if_neg h2, if_pos h]

/-- C2: index_file is idempotent under unchanged content: after any
first sync of a document, running index_file again with the same
content hash performs zero Vector Index mutations and leaves the whole
state (collection, file_hashes, persisted metadata) unchanged, whatever
the success flags of the second call. -/
theorem index_file_idempotent (fl2 : Flags) (s : SyncState)
    (relative_path title full_path content currentHash : List Nat) :
    index_file fl2
      (index_file allOk s mdSuffix relative_path title full_path content currentHash).1
      mdSuffix relative_path title full_path content currentHash =
    ((index_file allOk s mdSuffix relative_path title full_path content currentHash).1, []) := by
  apply index_file_noop
  by_cases hstored : lookupA s.file_hashes relative_path = some currentHash
  · rw [index_file_noop allOk s mdSuffix relative_path title full_path content currentHash hstored]
    exact hstored
  · simp only [index_file, allOk, not_true, true_or, if_false, not_false_iff, if_true]
    rw [if_neg hstored]
    exact lookupA_setKeyA_self s.file_hashes relative_path currentHash

/-- C1 (amended): if reading or hashing the file fails, or inserting
the new chunk batch fails, the sync aborts with both the in-memory
fingerprint map and the persisted metadata file unchanged; if only the
final persist fails, the persisted file is unchanged but the in-memory
entry has already been updated.  A failure while deleting the old
chunks, however, is caught and logged inside remove_file_chunks and
does not abort the sync: the new fingerprint is still recorded as
success (see the counterexample). -/
theorem index_file_failure_no_record (fl : Flags) (s : SyncState)
    (suffix relative_path title full_path content currentHash : List Nat) :
    ((fl.readOk = false ∨ fl.addOk = false) →
      (index_file fl s suffix relative_path title full_path content currentHash).1.file_hashes
          = s.file_hashes ∧
      (index_file fl s suffix relative_path title full_path content currentHash).1.persisted
          = s.persisted) ∧
    (fl.saveOk = false →
      (index_file fl s suffix relative_path title full_path content currentHash).1.persisted
          = s.persisted) := by
  by_cases h1 : ¬ (suffix = mdSuffix ∨ suffix = markdownSuffix)
  · unfold index_file
    rw [if_pos h1]
    exact ⟨fun _ => ⟨rfl, rfl⟩, fun _ => rfl⟩
  by_cases h2 : ¬ (fl.readOk = true)
  · unfold index_file
    rw [if_neg h1, if_pos h2]
    exact ⟨fun _ => ⟨rfl, rfl⟩, fun _ => rfl⟩
  by_cases h3 : lookupA s.file_hashes relative_path = some currentHash
  · unfold index_file
    rw [if_neg h1, if_neg h2, if_pos h3]
    exact ⟨fun _ => ⟨rfl, rfl⟩, fun _ => rfl⟩
  constructor
  · intro hfail
    have haddf : ¬ (fl.addOk = true) := by
      rcases hfail with hrf | haf
      · exact absurd hrf (by simpa using h2)
      · simp [haf]
    simp only [index_file]
    rw [if_neg h1, if_neg h2, if_neg h3]
    rw [if_pos haddf]
    exact ⟨rfl, rfl⟩
  · intro hsave
    have hsf : ¬ (fl.saveOk = true) := by simp [hsave]
    by_cases h4 : ¬ (fl.addOk = true)
    · simp only [index_file]
      rw [if_neg h1, if_neg h2, if_neg h3, if_pos h4]
    · simp only [index_file]
      rw [if_neg h1, if_neg h2, if_neg h3, if_neg h4, if_pos hsf]

/-- Witness for index_file_failure_no_record: a failed read at a
concrete state leaves the fingerprint map and persisted file unchanged. -/
theorem index_file_failure_no_record_witness :
    (index_file ⟨false, true, true, true⟩
        { collection := [], file_hashes := [([97], [49])], persisted := [([97], [49])] }
        mdSuffix [97] [116] [102] [99] [50]).1.file_hashes = [([97], [49])] ∧
    (index_file ⟨false, true, true, true⟩
        { collection := [], file_hashes := [([97], [49])], persisted := [([97], [49])] }
        mdSuffix [97] [116] [102] [99] [50]).1.persisted = [([97], [49])] :=
  (index_file_failure_no_record ⟨false, true, true, true⟩
    { collection := [], file_hashes := [([97], [49])], persisted := [([97], [49])] }
    mdSuffix [97] [116] [102] [99] [50]).1 (Or.inl rfl)

/-- C1 counterexample: starting from the state reached by successfully
indexing document [97] with content [99] and hash [49], a second sync
with new content [100] and new hash [50] in which the delete of the old
chunks fails (deleteOk = false) still updates the Sync State Store: the
in-memory fingerprint map and the persisted file both record the new
hash [50], so a sync with a failed step is recorded as success. -/
theorem index_file_delete_failure_recorded :
    (index_file ⟨true, false, true, true⟩
        (index_file allOk { collection := [], file_hashes := [], persisted := [] }
          mdSuffix [97] [116] [102] [99] [49]).1
        mdSuffix [97] [116] [102] [100] [50]).1.file_hashes
      ≠ (index_file allOk { collection := [], file_hashes := [], persisted := [] }
          mdSuffix [97] [116] [102] [99] [49]).1.file_hashes ∧
    (index_file ⟨true, false, true, true⟩
        (index_file allOk { collection := [], file_hashes := [], persisted := [] }
          mdSuffix [97] [116] [102] [99] [49]).1
        mdSuffix [97] [116] [102] [100] [50]).1.persisted
      ≠ (index_file allOk { collection := [], file_hashes := [], persisted := [] }
          mdSuffix [97] [116] [102] [99] [49]).1.persisted ∧
    (index_file ⟨true, false, true, true⟩
        (index_file allOk { collection := [], file_hashes := [], persisted := [] }
          mdSuffix [97] [116] [102] [99] [49]).1
        mdSuffix [97] [116] [102] [100] [50]).1.file_hashes = [([97], [50])] := by
  decide

/-- C9: save_metadata opens the metadata file with mode w, truncating
it in place before json.dump writes the new serialization — there is no
write-to-temp-then-rename — so a crash between truncation and write
exposes a file that parses as neither the old nor the new mapping,
losing the stored fingerprint of every unrelated document. -/
theorem save_metadata_not_crash_safe :
    ¬ crashSafe [([97], [49])] [([97], [49]), ([98], [50])] := by
  unfold crashSafe
  decide

lemma buildRecords_path (p t f : List Nat) (chunks : List (List Nat × Nat × Nat)) :
    ∀ r ∈ buildRecords p t f chunks, r.meta.file_path = p := by
  intro r hr
  unfold buildRecords at hr
  rw [List.mem_map] at hr
  obtain ⟨q, hq, hrq⟩ := hr
  rw [← hrq]

lemma buildRecords_id (p t f : List Nat) (chunks : List (List Nat × Nat × Nat)) :
    ∀ r ∈ buildRecords p t f chunks, ∃ i, r.id = chunkId p i := by
  intro r hr
  unfold buildRecords at hr
  rw [List.mem_map] at hr
  obtain ⟨q, hq, hrq⟩ := hr
  exact ⟨q.1, by rw [← hrq]⟩

lemma buildRecords_ne_nil (p t f : List Nat) (chunks : List (List Nat × Nat × Nat))
    (h : chunks ≠ []) : buildRecords p t f chunks ≠ [] := by
  intro hnil
  apply h
  have hlen : (buildRecords p t f chunks).length = chunks.length := by
    unfold buildRecords
    rw [List.length_map, List.enum_length]
  rw [hnil] at hlen
  simp at hlen
  exact List.length_eq_zero.mp hlen.symm

lemma docRecords_append (a b : List ChunkRecord) (p : List Nat) :
    docRecords (a ++ b) p = docRecords a p ++ docRecords b p := by
  unfold docRecords
  exact List.filter_append a b

lemma keep_filter_of_fresh (col : List ChunkRecord) (p t f : List Nat)
    (chunks : List (List Nat × Nat × Nat))
    (hfresh : ∀ r ∈ col, ∀ i, r.id ≠ chunkId p i) :
    col.filter (fun r => !decide (r.id ∈ (buildRecords p t f chunks).map (fun s => s.id))) = col := by
  apply List.filter_eq_self.mpr
  intro r hr
  have hnotmem : r.id ∉ (buildRecords p t f chunks).map (fun s => s.id) := by
    intro hmem
    rw [List.mem_map] at hmem
    obtain ⟨r2, hr2, hid⟩ := hmem
    obtain ⟨i, hi⟩ := buildRecords_id p t f chunks r2 hr2
    exact hfresh r hr i (by rw [← hid, hi])
  simpa using hnotmem

/-- C3 (amended): for a document first indexed from scratch and then
re-synced after a content mutation that changes its fingerprint, the
second index_file call performs exactly one delete batch carrying the
old version's chunk ids followed by exactly one insert batch carrying
the new version's chunk ids, and the records stored for the document
afterwards are exactly the new version's records — no record of the
prior version survives.  The id strings themselves are reused across
versions (id = document id + index), so the final id set can coincide
with the prior one; see the counterexample for the claim as literally
stated. -/
theorem index_file_change_detection (s : SyncState)
    (relative_path title full_path c1 c2 h1 h2 : List Nat)
    (hnew : lookupA s.file_hashes relative_path = none)
    (hfresh : ∀ r ∈ s.collection,
      r.meta.file_path ≠ relative_path ∧ ∀ i, r.id ≠ chunkId relative_path i)
    (hdiff : h1 ≠ h2) :
    (index_file allOk
        (index_file allOk s mdSuffix relative_path title full_path c1 h1).1
        mdSuffix relative_path title full_path c2 h2).2 =
      [VOp.deleteBatch ((buildRecords relative_path title full_path (chunk_content title c1)).map (fun r => r.id)),
       VOp.addBatch ((buildRecords relative_path title full_path (chunk_content title c2)).map (fun r => r.id))] ∧
    docRecords
        (index_file allOk
          (index_file allOk s mdSuffix relative_path title full_path c1 h1).1
          mdSuffix relative_path title full_path c2 h2).1.collection
        relative_path =
      buildRecords relative_path title full_path (chunk_content title c2) := by
  have hkeep1 := keep_filter_of_fresh s.collection relative_path title full_path
    (chunk_content title c1) (fun r hr => (hfresh r hr).2)
  have hkeep2 := keep_filter_of_fresh s.collection relative_path title full_path
    (chunk_content title c2) (fun r hr => (hfresh r hr).2)
  have hdoc0 : docRecords s.collection relative_path = [] := by
    apply List.filter_eq_nil_iff.mpr
    intro r hr
    simpa using (hfresh r hr).1
  have hdocs1 : docRecords (buildRecords relative_path title full_path (chunk_content title c1))
      relative_path = buildRecords relative_path title full_path (chunk_content title c1) := by
    apply List.filter_eq_self.mpr
    intro r hr
    simpa using buildRecords_path relative_path title full_path (chunk_content title c1) r hr
  have hdocs2 : docRecords (buildRecords relative_path title full_path (chunk_content title c2))
      relative_path = buildRecords relative_path title full_path (chunk_content title c2) := by
    apply List.filter_eq_self.mpr
    intro r hr
    simpa using buildRecords_path relative_path title full_path (chunk_content title c2) r hr
  have hne1 : ¬ (lookupA s.file_hashes relative_path = some h1) := by
    rw [hnew]
    intro hc
    cases hc
  have hr1 : index_file allOk s mdSuffix relative_path title full_path c1 h1 =
      ({ collection := s.collection ++ buildRecords relative_path title full_path (chunk_content title c1),
         file_hashes := setKeyA s.file_hashes relative_path h1,
         persisted := setKeyA s.file_hashes relative_path h1 },
       [VOp.addBatch ((buildRecords relative_path title full_path (chunk_content title c1)).map (fun r => r.id))]) := by
    simp only [index_file, allOk, not_true, true_or, if_false, not_false_iff, if_true]
    rw [if_neg hne1, hnew]
    simp only [Option.isSome_none, Bool.false_eq_true, if_false]
    unfold addRecords
    rw [hkeep1]
    simp
  have hrm : remove_file_chunks true
      (s.collection ++ buildRecords relative_path title full_path (chunk_content title c1))
      relative_path =
      (s.collection,
       [VOp.deleteBatch ((buildRecords relative_path title full_path (chunk_content title c1)).map (fun r => r.id))]) := by
    unfold remove_file_chunks
    rw [if_pos rfl]
    have hids : docRecords
        (s.collection ++ buildRecords relative_path title full_path (chunk_content title c1))
        relative_path = buildRecords relative_path title full_path (chunk_content title c1) := by
      rw [docRecords_append, hdoc0, hdocs1]
      simp
    rw [hids]
    have hrecs1_ne : buildRecords relative_path title full_path (chunk_content title c1) ≠ [] :=
      buildRecords_ne_nil relative_path title full_path (chunk_content title c1)
        (by unfold chunk_content; exact List.cons_ne_nil _ _)
    have hids_ne : (buildRecords relative_path title full_path (chunk_content title c1)).map (fun r => r.id) ≠ [] := by
      intro hc
      exact hrecs1_ne (List.map_eq_nil_iff.mp hc)
    rw [if_neg hids_ne]
    have hdrop : (buildRecords relative_path title full_path (chunk_content title c1)).filter
        (fun r => !decide (r.id ∈ (buildRecords relative_path title full_path (chunk_content title c1)).map (fun s => s.id))) = [] := by
      apply List.filter_eq_nil_iff.mpr
      intro r hr
      have hmem : r.id ∈ (buildRecords relative_path title full_path (chunk_content title c1)).map (fun s => s.id) :=
        List.mem_map.mpr ⟨r, hr, rfl⟩
      simpa using hmem
    rw [List.filter_append, hkeep1, hdrop]
    simp
  have hlook1 : lookupA (setKeyA s.file_hashes relative_path h1) relative_path = some h1 :=
    lookupA_setKeyA_self s.file_hashes relative_path h1
  have hne2 : ¬ (lookupA (setKeyA s.file_hashes relative_path h1) relative_path = some h2) := by
    rw [hlook1]
    intro hc
    exact hdiff (Option.some.inj hc)
  have hr1a : (index_file allOk s mdSuffix relative_path title full_path c1 h1).1 =
      { collection := s.collection ++ buildRecords relative_path title full_path (chunk_content title c1),
        file_hashes := setKeyA s.file_hashes relative_path h1,
        persisted := setKeyA s.file_hashes relative_path h1 } := by
    rw [hr1]
  rw [hr1a]
  simp only [index_file, allOk, not_true, true_or, if_false, not_false_iff, if_true]
  rw [if_neg hne2]
  rw [if_pos (show (lookupA (setKeyA s.file_hashes relative_path h1) relative_path).isSome = true by rw [hlook1]; rfl)]
  rw [hrm]
  unfold addRecords
  dsimp only
  rw [hkeep2]
  constructor
  · rfl
  · show docRecords (s.collection ++ buildRecords relative_path title full_path (chunk_content title c2)) relative_path = _
    rw [docRecords_append, hdoc0, hdocs2]
    simp

/-- Witness for index_file_change_detection: a fresh document [97] is
indexed with content [99] (hash [49]) and re-synced with content [100]
(hash [50]). -/
theorem index_file_change_detection_witness :
    (index_file allOk
        (index_file allOk { collection := [], file_hashes := [], persisted := [] }
          mdSuffix [97] [116] [102] [99] [49]).1
        mdSuffix [97] [116] [102] [100] [50]).2 =
      [VOp.deleteBatch ((buildRecords [97] [116] [102] (chunk_content [116] [99])).map (fun r => r.id)),
       VOp.addBatch ((buildRecords [97] [116] [102] (chunk_content [116] [100])).map (fun r => r.id))] ∧
    docRecords
        (index_file allOk
          (index_file allOk { collection := [], file_hashes := [], persisted := [] }
            mdSuffix [97] [116] [102] [99] [49]).1
          mdSuffix [97] [116] [102] [100] [50]).1.collection [97] =
      buildRecords [97] [116] [102] (chunk_content [116] [100]) :=
  index_file_change_detection { collection := [], file_hashes := [], persisted := [] }
    [97] [116] [102] [99] [100] [49] [50] rfl
    (fun r hr => absurd hr (List.not_mem_nil r))
    (by decide)

/-- C3 counterexample for the literal id-set reading: chunk ids are the
document id plus the index, so they are reused across versions.  After
mutating content [99] to [100] (each version yielding chunk indices 0
and 1), the id [97, 95, 48] belongs to the prior version's id set and
is still present in the final id set stored for the document. -/
theorem index_file_id_reuse :
    [97, 95, 48] ∈ (docRecords
        (index_file allOk { collection := [], file_hashes := [], persisted := [] }
          mdSuffix [97] [116] [102] [99] [49]).1.collection [97]).map (fun r => r.id) ∧
    [97, 95, 48] ∈ (docRecords
        (index_file allOk
          (index_file allOk { collection := [], file_hashes := [], persisted := [] }
            mdSuffix [97] [116] [102] [99] [49]).1
          mdSuffix [97] [116] [102] [100] [50]).1.collection [97]).map (fun r => r.id) := by
  decide

/-- A reconstructed article (daz-obsidian-mcp.py lines 151-157).
Distances and scores are modelled as integers: the claims depend only
on the linear order of the distances the Vector Index returns and on
the map d to 1 - d, not on any floating-point semantics. -/
structure Article where
  file_path : List Nat
  title : List Nat
  full_path : List Nat
  content : List Nat
  relevance_score : ℤ
deriving DecidableEq

/-- One step of the file_scores accumulation (daz-obsidian-mcp.py lines
103-110): record the distance when the path is new or strictly better
than the stored one. -/
def updateScore (acc : List (List Nat × ℤ)) (hit : List Nat × ℤ) : List (List Nat × ℤ) :=
  match lookupA acc hit.1 with
  | none => acc ++ [(hit.1, hit.2)]
  | some d0 => if hit.2 < d0 then setKeyA acc hit.1 hit.2 else acc

/-- Ascending-by-distance comparison for Python's stable sorted with
key x[1]. -/
def leDist (a b : List Nat × ℤ) : Prop := a.2 ≤ b.2

instance : DecidableRel leDist := fun a b => inferInstanceAs (Decidable (a.2 ≤ b.2))

instance : IsTotal (List Nat × ℤ) leDist := ⟨fun a b => le_total a.2 b.2⟩

instance : IsTrans (List Nat × ℤ) leDist := ⟨fun _ _ _ => le_trans⟩

/-- Ascending-by-chunk-index comparison for the per-file chunk sort. -/
def leIdx (a b : ChunkRecord) : Prop := a.meta.chunk_index ≤ b.meta.chunk_index

instance : DecidableRel leIdx := fun a b => inferInstanceAs (Decidable (a.meta.chunk_index ≤ b.meta.chunk_index))

instance : IsTotal ChunkRecord leIdx := ⟨fun a b => Nat.le_total a.meta.chunk_index b.meta.chunk_index⟩

instance : IsTrans ChunkRecord leIdx := ⟨fun _ _ _ => Nat.le_trans⟩

/-- Reconstruction of one article (daz-obsidian-mcp.py lines 117-158):
fetch all chunks of the file, skip the file when there are none, sort
the chunks by chunk_index (List.insertionSort is stable like Python
list.sort), take title and full_path from the first sorted chunk, join
the texts of all chunks after the first with no de-overlapping, and set
relevance_score to 1 - best distance. -/
def reconstructArticle (col : List ChunkRecord) (entry : List Nat × ℤ) : Option Article :=
  match List.insertionSort leIdx (docRecords col entry.1) with
  | [] => none
  | c0 :: rest =>
    some { file_path := entry.1, title := c0.meta.title, full_path := c0.meta.full_path,
           content := (rest.map (fun r => r.document)).flatten,
           relevance_score := 1 - entry.2 }

/-- search_full (daz-obsidian-mcp.py lines 85-164), applied to the
chunk hits (file_path of the metadata, distance) that the external
similarity query returned for n_results = limit * 3, and to the
collection used by the per-file get: an empty hit list returns [];
otherwise hits are collapsed to the best (minimum) distance per file in
first-seen order, sorted by distance ascending (stably), truncated to
limit, and each surviving file is reconstructed into an article. -/
def search_full (col : List ChunkRecord) (hits : List (List Nat × ℤ)) (limit : Nat) :
    List Article :=
  if hits = [] then []
  else
    ((List.insertionSort leDist (hits.foldl updateScore [])).take limit).filterMap
      (reconstructArticle col)

/-- A raw row of the similarity query result consumed by
search_snippets: chunk id, chunk text, metadata, distance. -/
structure SnippetRow where
  id : List Nat
  document : List Nat
  meta : ChunkMeta
  distance : ℤ
deriving DecidableEq

/-- A formatted snippet result (daz-obsidian-mcp.py lines 70-77). -/
structure Snippet where
  chunk_id : List Nat
  content : List Nat
  metadata : ChunkMeta
  distance : ℤ
deriving DecidableEq

/-- search_snippets (daz-obsidian-mcp.py lines 51-83) applied to the
rows returned by the similarity query: an empty result yields [],
otherwise each row is reshaped into a snippet. -/
def search_snippets (rows : List SnippetRow) : List Snippet :=
  if rows = [] then []
  else rows.map (fun r =>
    { chunk_id := r.id, content := r.document, metadata := r.meta, distance := r.distance })

/-- The try/except wrapper of search_snippets: none models the
similarity query raising, which is caught, logged, and presented as no
results. -/
def search_snippets_run (outcome : Option (List SnippetRow)) : List Snippet :=
  match outcome with
  | none => []
  | some rows => search_snippets rows

/-- The try/except wrapper of search_full: none models an error raised
by the query or during reconstruction, caught and presented as no
results. -/
def search_full_run (col : List ChunkRecord) (outcome : Option (List (List Nat × ℤ)))
    (limit : Nat) : List Article :=
  match outcome with
  | none => []
  | some hits => search_full col hits limit

/-- Minimum of a list of distances, none for the empty list. -/
def minD : List ℤ → Option ℤ
  | [] => none
  | d :: ds =>
    match minD ds with
    | none => some d
    | some m => some (min d m)

/-- Best (minimum) distance among the hits of one document — the
specification's description of the per-document score, to compare with
the file_scores dict the code builds. -/
def bestDistance (hits : List (List Nat × ℤ)) (p : List Nat) : Option ℤ :=
  minD ((hits.filter (fun h => decide (h.1 = p))).map (fun h => h.2))

/-- Combination of an optional old score with an optional new best. -/
def combineMin : Option ℤ → Option ℤ → Option ℤ
  | none, o => o
  | some d, none => some d
  | some d, some m => some (min d m)

/-- Well-formed collection: for every record, the records sharing its
file_path have pairwise distinct chunk indices and include index 0 (the
title chunk).  This is the shape the indexer stores. -/
def WFcol (col : List ChunkRecord) : Prop :=
  ∀ r ∈ col,
    ((docRecords col r.meta.file_path).map (fun x => x.meta.chunk_index)).Nodup ∧
    0 ∈ (docRecords col r.meta.file_path).map (fun x => x.meta.chunk_index)

/-- The concatenation, in chunk_index order, of the texts of every
chunk of a document except those with index 0 — the specification's
description of reconstructed content. -/
def nonTitleConcat (col : List ChunkRecord) (p : List Nat) : List Nat :=
  (((List.insertionSort leIdx (docRecords col p)).filter
      (fun r => !decide (r.meta.chunk_index = 0))).map (fun r => r.document)).flatten

/-- C8: query-path failures and empty result sets never propagate: a
raised Vector Index error (caught by the try/except wrappers) and a
zero-match result each produce the empty sequence from both
search_snippets and search_full. -/
theorem search_error_empty (col : List ChunkRecord) (limit : Nat) :
    search_snippets_run none = [] ∧ search_snippets_run (some []) = [] ∧
    search_full_run col none limit = [] ∧ search_full_run col (some []) limit = [] := by
  refine ⟨rfl, rfl, rfl, ?_⟩
  show search_full col [] limit = []
  unfold search_full
  rw [if_pos rfl]

lemma lookupA_append {α : Type} (m l : List (List Nat × α)) (p : List Nat) :
    lookupA (m ++ l) p =
      match lookupA m p with
      | some v => some v
      | none => lookupA l p := by
  induction m with
  | nil => simp [lookupA]
  | cons q rest ih =>
    obtain ⟨k, v⟩ := q
    by_cases hk : k = p
    · simp [lookupA, hk]
    · simp only [List.cons_append]
      show (if k = p then some v else lookupA (rest ++ l) p) =
        match (if k = p then some v else lookupA rest p) with
        | some v => some v
        | none => lookupA l p
      rw [if_neg hk, if_neg hk, ih]

lemma lookupA_setKeyA_ne {α : Type} (m : List (List Nat × α)) (k p : List Nat) (v : α)
    (hne : k ≠ p) : lookupA (setKeyA m k v) p = lookupA m p := by
  induction m with
  | nil =>
    unfold setKeyA lookupA
    rw [if_neg hne]
    rfl
  | cons q rest ih =>
    obtain ⟨k2, w⟩ := q
    unfold setKeyA
    by_cases hk2 : k2 = k
    · rw [if_pos hk2]
      unfold lookupA
      by_cases hk2p : k2 = p
      · exact absurd (hk2p ▸ hk2.symm ▸ rfl : k = p) hne
      · rw [if_neg hk2p, if_neg hk2p]
    · rw [if_neg hk2]
      unfold lookupA
      by_cases hk2p : k2 = p
      · rw [if_pos hk2p, if_pos hk2p]
      · rw [if_neg hk2p, if_neg hk2p]
        exact ih

lemma lookupA_none_keys {α : Type} (m : List (List Nat × α)) (p : List Nat)
    (h : lookupA m p = none) : ∀ q ∈ m, q.1 ≠ p := by
  induction m with
  | nil => intro q hq; cases hq
  | cons e rest ih =>
    intro q hq
    obtain ⟨k, v⟩ := e
    unfold lookupA at h
    by_cases hk : k = p
    · rw [if_pos hk] at h
      cases h
    · rw [if_neg hk] at h
      rcases List.mem_cons.mp hq with hq1 | hq2
      · rw [hq1]
        exact hk
      · exact ih h q hq2

lemma setKeyA_mem {α : Type} (m : List (List Nat × α)) (k : List Nat) (v : α) :
    ∀ q ∈ setKeyA m k v, q.1 = k ∨ q ∈ m := by
  induction m with
  | nil =>
    intro q hq
    unfold setKeyA at hq
    rcases List.mem_singleton.mp hq with h
    rw [h]
    exact Or.inl rfl
  | cons e rest ih =>
    intro q hq
    obtain ⟨k2, w⟩ := e
    unfold setKeyA at hq
    by_cases hk2 : k2 = k
    · rw [if_pos hk2] at hq
      rcases List.mem_cons.mp hq with hq1 | hq2
      · rw [hq1]
        exact Or.inl hk2
      · exact Or.inr (List.mem_cons_of_mem _ hq2)
    · rw [if_neg hk2] at hq
      rcases List.mem_cons.mp hq with hq1 | hq2
      · rw [hq1]
        exact Or.inr (List.mem_cons_self _ _)
      · rcases ih q hq2 with h | h
        · exact Or.inl h
        · exact Or.inr (List.mem_cons_of_mem _ h)

lemma setKeyA_keys_pairwise {α : Type} (m : List (List Nat × α)) (k : List Nat) (v : α)
    (h : m.Pairwise (fun a b => a.1 ≠ b.1)) :
    (setKeyA m k v).Pairwise (fun a b => a.1 ≠ b.1) := by
  induction m with
  | nil => simp [setKeyA]
  | cons e rest ih =>
    obtain ⟨k2, w⟩ := e
    rw [List.pairwise_cons] at h
    unfold setKeyA
    by_cases hk2 : k2 = k
    · rw [if_pos hk2]
      exact List.pairwise_cons.mpr ⟨h.1, h.2⟩
    · rw [if_neg hk2]
      refine List.pairwise_cons.mpr ⟨?_, ih h.2⟩
      intro q hq
      rcases setKeyA_mem rest k v q hq with hqk | hqm
      · rw [hqk]
        exact hk2
      · exact h.1 q hqm

lemma updateScore_keys_pairwise :
    ∀ (hits : List (List Nat × ℤ)) (acc : List (List Nat × ℤ)),
      acc.Pairwise (fun a b => a.1 ≠ b.1) →
      (hits.foldl updateScore acc).Pairwise (fun a b => a.1 ≠ b.1) := by
  intro hits
  induction hits with
  | nil => intro acc h; exact h
  | cons hit rest ih =>
    intro acc h
    rw [List.foldl_cons]
    apply ih
    unfold updateScore
    split
    case h_1 hl =>
      rw [List.pairwise_append]
      refine ⟨h, List.pairwise_singleton _ _, ?_⟩
      intro a ha b hb
      rw [List.mem_singleton.mp hb]
      exact lookupA_none_keys acc hit.1 hl a ha
    case h_2 d0 hl =>
      split
      · exact setKeyA_keys_pairwise acc hit.1 hit.2 h
      · exact h

lemma pairwise_filterMap_of {α β : Type} (f : α → Option β) (R : α → α → Prop)
    (S : β → β → Prop)
    (hRS : ∀ a b x y, R a b → f a = some x → f b = some y → S x y) :
    ∀ l : List α, l.Pairwise R → (l.filterMap f).Pairwise S := by
  intro l
  induction l with
  | nil => intro _; simp
  | cons a t ih =>
    intro hp
    rw [List.pairwise_cons] at hp
    cases hfa : f a with
    | none =>
      simp only [List.filterMap_cons, hfa]
      exact ih hp.2
    | some x =>
      simp only [List.filterMap_cons, hfa]
      refine List.pairwise_cons.mpr ⟨?_, ih hp.2⟩
      intro y hy
      rw [List.mem_filterMap] at hy
      obtain ⟨b, hb, hfb⟩ := hy
      exact hRS a b x y (hp.1 b hb) hfa hfb

lemma reconstructArticle_fields (col : List ChunkRecord) (e : List Nat × ℤ) (art : Article)
    (h : reconstructArticle col e = some art) :
    art.file_path = e.1 ∧ art.relevance_score = 1 - e.2 := by
  unfold reconstructArticle at h
  split at h
  · cases h
  · rw [Option.some_inj] at h
    rw [← h]
    exact ⟨rfl, rfl⟩

/-- C6: search_full returns at most limit results, each with a distinct
document id (file_path), ordered by relevance_score descending,
equivalently by best chunk distance per document ascending. -/
theorem search_full_ranking (col : List ChunkRecord) (hits : List (List Nat × ℤ)) (limit : Nat) :
    (search_full col hits limit).length ≤ limit ∧
    (search_full col hits limit).Pairwise (fun a b => a.file_path ≠ b.file_path) ∧
    (search_full col hits limit).Pairwise (fun a b => b.relevance_score ≤ a.relevance_score) := by
  unfold search_full
  split
  · simp
  have hscores : (hits.foldl updateScore []).Pairwise
      (fun a b : List Nat × ℤ => a.1 ≠ b.1) :=
    updateScore_keys_pairwise hits [] (List.Pairwise.nil)
  have hperm := List.perm_insertionSort leDist (hits.foldl updateScore [])
  have hsortkeys : (List.insertionSort leDist (hits.foldl updateScore [])).Pairwise
      (fun a b : List Nat × ℤ => a.1 ≠ b.1) :=
    (hperm.pairwise_iff (fun hxy heq => hxy heq.symm)).mpr hscores
  have htakekeys := hsortkeys.sublist (List.take_sublist limit _)
  have hsorted : (List.insertionSort leDist (hits.foldl updateScore [])).Pairwise leDist :=
    List.sorted_insertionSort leDist (hits.foldl updateScore [])
  have htakesorted := hsorted.sublist (List.take_sublist limit _)
  refine ⟨?_, ?_, ?_⟩
  · refine le_trans (List.length_filterMap_le _ _) ?_
    rw [List.length_take]
    exact min_le_left _ _
  · refine pairwise_filterMap_of (reconstructArticle col) _ _ ?_ _ htakekeys
    intro a b x y hab hfa hfb
    have hxa := reconstructArticle_fields col a x hfa
    have hyb := reconstructArticle_fields col b y hfb
    rw [hxa.1, hyb.1]
    exact hab
  · refine pairwise_filterMap_of (reconstructArticle col) _ _ ?_ _ htakesorted
    intro a b x y hab hfa hfb
    have hxa := reconstructArticle_fields col a x hfa
    have hyb := reconstructArticle_fields col b y hfb
    rw [hxa.2, hyb.2]
    have hd : a.2 ≤ b.2 := hab
    linarith

lemma bestDistance_cons (hit : List Nat × ℤ) (rest : List (List Nat × ℤ)) (p : List Nat) :
    bestDistance (hit :: rest) p =
      if hit.1 = p then combineMin (some hit.2) (bestDistance rest p)
      else bestDistance rest p := by
  unfold bestDistance
  by_cases hp : hit.1 = p
  · rw [if_pos hp, List.filter_cons_of_pos (by simpa using hp), List.map_cons]
    cases hm : minD ((rest.filter (fun h => decide (h.1 = p))).map (fun h => h.2)) with
    | none => simp only [minD, hm, combineMin]
    | some m => simp only [minD, hm, combineMin]
  · rw [if_neg hp, List.filter_cons_of_neg (by simpa using hp)]

lemma foldl_updateScore_lookup :
    ∀ (hits : List (List Nat × ℤ)) (acc : List (List Nat × ℤ)) (p : List Nat),
      lookupA (hits.foldl updateScore acc) p =
        combineMin (lookupA acc p) (bestDistance hits p) := by
  intro hits
  induction hits with
  | nil =>
    intro acc p
    show lookupA acc p = combineMin (lookupA acc p) (bestDistance [] p)
    have hb : bestDistance [] p = none := rfl
    rw [hb]
    cases lookupA acc p <;> rfl
  | cons hit rest ih =>
    intro acc p
    rw [List.foldl_cons, ih, bestDistance_cons]
    by_cases hp : hit.1 = p
    · subst hp
      rw [if_pos rfl]
      cases hl : lookupA acc hit.1 with
      | none =>
        have hupd : lookupA (updateScore acc hit) hit.1 = some hit.2 := by
          unfold updateScore
          rw [hl]
          show lookupA (acc ++ [(hit.1, hit.2)]) hit.1 = some hit.2
          rw [lookupA_append, hl]
          show lookupA [(hit.1, hit.2)] hit.1 = some hit.2
          unfold lookupA
          rw [if_pos rfl]
        rw [hupd]
        cases bestDistance rest hit.1 <;> rfl
      | some d0 =>
        have hred : updateScore acc hit = if hit.2 < d0 then setKeyA acc hit.1 hit.2 else acc := by
          unfold updateScore
          rw [hl]
        rw [hred]
        by_cases hlt : hit.2 < d0
        · rw [if_pos hlt, lookupA_setKeyA_self]
          cases hbd : bestDistance rest hit.1 with
          | none =>
            show some hit.2 = some (min d0 hit.2)
            rw [min_eq_right (le_of_lt hlt)]
          | some m =>
            show some (min hit.2 m) = some (min d0 (min hit.2 m))
            rw [min_eq_right (le_trans (min_le_left _ _) (le_of_lt hlt))]
        · rw [if_neg hlt, hl]
          have hle : d0 ≤ hit.2 := le_of_not_lt hlt
          cases hbd : bestDistance rest hit.1 with
          | none =>
            show some d0 = some (min d0 hit.2)
            rw [min_eq_left hle]
          | some m =>
            show some (min d0 m) = some (min d0 (min hit.2 m))
            rw [← min_assoc, min_eq_left hle]
    · rw [if_neg hp]
      have hupd : lookupA (updateScore acc hit) p = lookupA acc p := by
        cases hl : lookupA acc hit.1 with
        | none =>
          have hred : updateScore acc hit = acc ++ [(hit.1, hit.2)] := by
            unfold updateScore
            rw [hl]
          rw [hred, lookupA_append]
          cases hap : lookupA acc p with
          | none =>
            show lookupA [(hit.1, hit.2)] p = none
            unfold lookupA
            rw [if_neg hp]
            rfl
          | some v => rfl
        | some d0 =>
          have hred : updateScore acc hit = if hit.2 < d0 then setKeyA acc hit.1 hit.2 else acc := by
            unfold updateScore
            rw [hl]
          rw [hred]
          by_cases hlt : hit.2 < d0
          · rw [if_pos hlt]
            exact lookupA_setKeyA_ne acc hit.1 p hit.2 hp
          · rw [if_neg hlt]
      rw [hupd]

lemma lookupA_of_mem_pairwise {α : Type} (m : List (List Nat × α)) (k : List Nat) (v : α)
    (hnd : m.Pairwise (fun a b => a.1 ≠ b.1)) (hmem : (k, v) ∈ m) :
    lookupA m k = some v := by
  induction m with
  | nil => cases hmem
  | cons e rest ih =>
    rw [List.pairwise_cons] at hnd
    rcases List.mem_cons.mp hmem with h1 | h2
    · rw [← h1]
      unfold lookupA
      rw [if_pos rfl]
    · obtain ⟨k2, w⟩ := e
      unfold lookupA
      by_cases hk : k2 = k
      · exact absurd (by rw [hk] : (k2, w).1 = (k, v).1) (hnd.1 (k, v) h2)
      · rw [if_neg hk]
        exact ih hnd.2 h2

lemma sorted_head_title (l : List ChunkRecord)
    (hnd : (l.map (fun x => x.meta.chunk_index)).Nodup)
    (h0 : 0 ∈ l.map (fun x => x.meta.chunk_index)) :
    ∃ c0 rest, List.insertionSort leIdx l = c0 :: rest ∧ c0.meta.chunk_index = 0 ∧
      (c0 :: rest).filter (fun r => !decide (r.meta.chunk_index = 0)) = rest := by
  have hperm := List.perm_insertionSort leIdx l
  have hsorted : (List.insertionSort leIdx l).Pairwise leIdx :=
    List.sorted_insertionSort leIdx l
  have hpermmap := hperm.map (fun x => x.meta.chunk_index)
  have hnd2 : ((List.insertionSort leIdx l).map (fun x => x.meta.chunk_index)).Nodup :=
    hpermmap.nodup_iff.mpr hnd
  have h02 : 0 ∈ (List.insertionSort leIdx l).map (fun x => x.meta.chunk_index) :=
    hpermmap.mem_iff.mpr h0
  cases hs : List.insertionSort leIdx l with
  | nil =>
    rw [hs] at h02
    cases h02
  | cons c0 rest =>
    rw [hs] at hsorted hnd2 h02
    rw [List.pairwise_cons] at hsorted
    rw [List.map_cons] at hnd2 h02
    have hc0 : c0.meta.chunk_index = 0 := by
      rcases List.mem_cons.mp h02 with h1 | h1
      · exact h1.symm
      · rw [List.mem_map] at h1
        obtain ⟨r, hr, hri⟩ := h1
        have := hsorted.1 r hr
        unfold leIdx at this
        omega
    refine ⟨c0, rest, rfl, hc0, ?_⟩
    rw [List.filter_cons_of_neg (by simp [hc0])]
    apply List.filter_eq_self.mpr
    intro r hr
    rw [List.nodup_cons] at hnd2
    have hne0 : r.meta.chunk_index ≠ 0 := by
      intro hr0
      apply hnd2.1
      rw [hc0, ← hr0]
      exact List.mem_map.mpr ⟨r, hr, rfl⟩
    simpa using hne0

/-- C7: for a well-formed collection (distinct chunk indices per
document, title chunk present at index 0), every article returned by
search_full has content equal to the plain concatenation, in
chunk_index order, of the texts of every chunk of that document except
the index-0 title chunk (no de-overlapping), and relevance_score equal
to 1 minus the minimum distance among that document's matched chunks. -/
theorem search_full_content (col : List ChunkRecord) (hits : List (List Nat × ℤ))
    (limit : Nat) (art : Article) (hwf : WFcol col)
    (hart : art ∈ search_full col hits limit) :
    art.content = nonTitleConcat col art.file_path ∧
    bestDistance hits art.file_path = some (1 - art.relevance_score) := by
  unfold search_full at hart
  split at hart
  · cases hart
  · rw [List.mem_filterMap] at hart
    obtain ⟨e, he, hre⟩ := hart
    have hf := reconstructArticle_fields col e art hre
    constructor
    · unfold reconstructArticle at hre
      split at hre
      case h_1 => cases hre
      case h_2 c0 rest hs =>
        rw [Option.some_inj] at hre
        have hne : docRecords col e.1 ≠ [] := by
          intro h0
          rw [h0] at hs
          cases hs
        obtain ⟨r0, hr0⟩ := List.exists_mem_of_ne_nil _ hne
        have hr0p : r0.meta.file_path = e.1 := by
          have := List.of_mem_filter hr0
          simpa using this
        have hr0col : r0 ∈ col := List.mem_of_mem_filter hr0
        obtain ⟨hnd, h0mem⟩ := hwf r0 hr0col
        rw [hr0p] at hnd h0mem
        obtain ⟨c0q, restq, hsq, hc0q, hfilq⟩ := sorted_head_title (docRecords col e.1) hnd h0mem
        rw [hs] at hsq
        obtain ⟨hc0eq, hresteq⟩ := List.cons.inj hsq
        rw [hf.1]
        unfold nonTitleConcat
        rw [← hc0eq, ← hresteq] at hfilq
        rw [hs, hfilq, ← hre]
    · rw [hf.1, hf.2]
      have h11 : (1 : ℤ) - (1 - e.2) = e.2 := by ring
      rw [h11]
      have hmem1 : e ∈ List.insertionSort leDist (hits.foldl updateScore []) :=
        List.mem_of_mem_take he
      have hmem2 : e ∈ hits.foldl updateScore [] :=
        (List.perm_insertionSort leDist (hits.foldl updateScore [])).mem_iff.mp hmem1
      have hnd : (hits.foldl updateScore []).Pairwise (fun a b => a.1 ≠ b.1) :=
        updateScore_keys_pairwise hits [] List.Pairwise.nil
      have hlook : lookupA (hits.foldl updateScore []) e.1 = some e.2 :=
        lookupA_of_mem_pairwise _ e.1 e.2 hnd (by simpa using hmem2)
      have hinvar := foldl_updateScore_lookup hits [] e.1
      have hnil : lookupA ([] : List (List Nat × ℤ)) e.1 = none := rfl
      rw [hnil] at hinvar
      rw [hlook] at hinvar
      cases hbd : bestDistance hits e.1 with
      | none =>
        rw [hbd] at hinvar
        cases hinvar
      | some m =>
        rw [hbd] at hinvar
        have : e.2 = m := by
          have h2 : combineMin none (some m) = some m := rfl
          rw [h2] at hinvar
          exact Option.some.inj hinvar
        rw [this]

/-- Sample collection with one document (title chunk + one content
chunk) for the reconstruction witness. -/
def sampleCol : List ChunkRecord :=
  [{ id := [97, 95, 48], document := [116],
     meta := { file_path := [97], title := [116], chunk_index := 0, start_pos := 0,
               end_pos := 0, is_title_chunk := true, full_path := [102] } },
   { id := [97, 95, 49], document := [99, 100],
     meta := { file_path := [97], title := [116], chunk_index := 1, start_pos := 0,
               end_pos := 2, is_title_chunk := false, full_path := [102] } }]

/-- Sample hit list for the reconstruction witness. -/
def sampleHits : List (List Nat × ℤ) := [([97], 2)]

/-- The article search_full returns on the sample data. -/
def sampleArticle : Article :=
  { file_path := [97], title := [116], full_path := [102], content := [99, 100],
    relevance_score := 1 - 2 }

/-- Witness for search_full_content on the sample data. -/
theorem search_full_content_witness :
    sampleArticle.content = nonTitleConcat sampleCol sampleArticle.file_path ∧
    bestDistance sampleHits sampleArticle.file_path = some (1 - sampleArticle.relevance_score) :=
  search_full_content sampleCol sampleHits 1 sampleArticle
    (by unfold WFcol; decide) (by decide)

/-- Edge case from the chunker contract: empty content yields only the
title chunk. -/
theorem chunk_content_empty (title : List Nat) : chunk_content title [] = [(title, 0, 0)] := rfl
